import Mathlib

/-!
Verification of the two-integer line parser in `src/integer-parsing/main.cpp`.

The C++ code scans a `std::string` with an index `i`; here a string is a
`List Char` and the cursor is represented by the remaining suffix of the
input, so "the loop advanced the index past a character" becomes "the
function recursed into the tail".  Machine `size_t` arithmetic is `Nat`
with an explicit `% 2 ^ 64` at the one place the source performs a
multiply-add on `size_t`.
-/

/-- ASCII classification mirroring C `isspace` in the "C" locale, as used by
the source on `std::string` bytes: space (32), tab (9), newline (10),
vertical tab (11), form feed (12), carriage return (13). -/
def isspace (c : Char) : Bool :=
  c.toNat = 32 || c.toNat = 9 || c.toNat = 10 || c.toNat = 11 || c.toNat = 12 || c.toNat = 13

/-- ASCII classification mirroring C `isdigit`: codes 48 (`0`) through 57 (`9`). -/
def isdigit (c : Char) : Bool :=
  48 ≤ c.toNat && c.toNat ≤ 57

/-- Numeric value of a digit character, mirroring `str[i] - '0'` (`'0'` is 48). -/
def dval (c : Char) : Nat := c.toNat - 48

/-- Mirrors `constexpr size_t max_val = size_t(-1)` in `parse_single`. -/
def max_val : Nat := 2 ^ 64 - 1

/-- Mirrors `constexpr size_t risky_val = max_val/10` in `parse_single`. -/
def risky_val : Nat := max_val / 10

/-- Mirrors `constexpr size_t max_digit = max_val % 10` in `parse_single`. -/
def max_digit : Nat := max_val % 10

/-- Mirrors the digit-accumulation loop body of `parse_single`:
the while loop over `isdigit` characters with the overflow guard
`res < risky_val || (res == risky_val && d <= max_digit)` checked before each
multiply-add `res = res*10 + d` (performed in `size_t`, hence the `% 2 ^ 64`).
On success returns the accumulated value together with the rest of the input
past the digit run (the C++ out-parameters `val` and `end`); returns `none`
when the guard fails, mirroring `return false`. -/
def parse_single_loop (l : List Char) (res : Nat) : Option (Nat × List Char) :=
  match l with
  | [] => some (res, [])
  | c :: cs =>
    if isdigit c then
      if res < risky_val ∨ (res = risky_val ∧ dval c ≤ max_digit) then
        parse_single_loop cs ((res * 10 + dval c) % 2 ^ 64)
      else
        none
    else
      some (res, c :: cs)

/-- Mirrors `parse_single(str, i, end, val)`: the loop starts from `res = 0`
at the cursor (here: the suffix `l` of the input beginning at index `i`). -/
def parse_single (l : List Char) : Option (Nat × List Char) :=
  parse_single_loop l 0

/-- Mirrors `enum class ErrCode { success, empty, error }`. -/
inductive ErrCode where
  | success
  | empty
  | error
  deriving DecidableEq, Repr

/-- Mirrors `struct Result { size_t row; size_t col; ErrCode err; }`.
The C++ struct leaves `row`/`col` uninitialized on non-success paths; the
embedding fills those fields with the last value the source actually wrote
(or `0`), and the comparison `resultEq` below ignores them exactly as the
source `operator==` does. -/
structure Result where
  row : Nat
  col : Nat
  err : ErrCode
  deriving DecidableEq, Repr

/-- Mirrors `parse_custom`: skip whitespace (the `while isspace` loop is
`dropWhile isspace`); empty if the cursor reached the end; error if the
current character is not a digit; scan the row; skip whitespace; error on
end-of-input or non-digit; scan the col; success. -/
def parse_custom (str : List Char) : Result :=
  match str.dropWhile isspace with
  | [] => ⟨0, 0, ErrCode.empty⟩
  | c :: cs =>
    if isdigit c then
      match parse_single (c :: cs) with
      | none => ⟨0, 0, ErrCode.error⟩
      | some (row, rest) =>
        match rest.dropWhile isspace with
        | [] => ⟨row, 0, ErrCode.error⟩
        | c2 :: cs2 =>
          if isdigit c2 then
            match parse_single (c2 :: cs2) with
            | none => ⟨row, 0, ErrCode.error⟩
            | some (col, _) => ⟨row, col, ErrCode.success⟩
          else ⟨row, 0, ErrCode.error⟩
    else ⟨0, 0, ErrCode.error⟩

/-- Mirrors the source `operator==(Result, Result)`: results with different
error codes are unequal; two non-success results are equal regardless of the
(uninitialized) integer fields; two successes compare `col` then `row`. -/
def resultEq (a b : Result) : Bool :=
  if a.err ≠ b.err then false
  else if a.err ≠ ErrCode.success then true
  else a.col == b.col && a.row == b.row

/-- Mathematical value of a digit string continued from accumulator `res`
(decimal positional fold, no overflow). Used only in specifications. -/
def natVal (res : Nat) (ds : List Char) : Nat :=
  ds.foldl (fun a c => a * 10 + dval c) res

/-- Error conditions of `std::from_chars`, mirroring the two `std::errc`
values the source tests for. -/
inductive FCErr where
  | ok
  | invalid_argument
  | result_out_of_range
  deriving DecidableEq, Repr

/-- Model of `std::from_chars(first, last, value, 10)` for a 64-bit unsigned
target, per the C++ standard: the pattern is a nonempty run of decimal digits
with no sign; if no digit matches, `invalid_argument` with the pointer left at
`first`; if the run's value does not fit, `result_out_of_range` with the
pointer one past the run; otherwise the value and the pointer one past the
run. The pointer is represented by the remaining suffix. -/
def from_chars_u64 (l : List Char) : FCErr × Nat × List Char :=
  let ds := l.takeWhile isdigit
  if ds = [] then (FCErr.invalid_argument, 0, l)
  else if max_val < natVal 0 ds then (FCErr.result_out_of_range, 0, l.dropWhile isdigit)
  else (FCErr.ok, natVal 0 ds, l.dropWhile isdigit)

/-- Mirrors `parse_from_chars`: skip whitespace, empty on end-of-input,
convert the row (error on `invalid_argument` or `result_out_of_range`), skip
whitespace from the returned pointer, error on end-of-input, convert the col
(same error tests), success. -/
def parse_from_chars (str : List Char) : Result :=
  match str.dropWhile isspace with
  | [] => ⟨0, 0, ErrCode.empty⟩
  | c :: cs =>
    match from_chars_u64 (c :: cs) with
    | (FCErr.invalid_argument, _, _) => ⟨0, 0, ErrCode.error⟩
    | (FCErr.result_out_of_range, _, _) => ⟨0, 0, ErrCode.error⟩
    | (FCErr.ok, v1, rest) =>
      match rest.dropWhile isspace with
      | [] => ⟨v1, 0, ErrCode.error⟩
      | c2 :: cs2 =>
        match from_chars_u64 (c2 :: cs2) with
        | (FCErr.invalid_argument, _, _) => ⟨v1, 0, ErrCode.error⟩
        | (FCErr.result_out_of_range, _, _) => ⟨v1, 0, ErrCode.error⟩
        | (FCErr.ok, v2, _) => ⟨v1, v2, ErrCode.success⟩

/-- Digit-run conversion shared by the `strtoull` model: `s` is the input
after the optional sign, `orig` the original argument pointer. Per the C
standard: if the run is empty no conversion is performed and the end pointer
equals `orig`; on overflow the function returns `ULLONG_MAX` and sets
`ERANGE` (the Bool component); otherwise the converted value, negated modulo
`2 ^ 64` when a minus sign was consumed. -/
def strtoull_scan (s : List Char) (neg : Bool) (orig : List Char) : Nat × List Char × Bool :=
  let ds := s.takeWhile isdigit
  if ds = [] then (0, orig, false)
  else if max_val < natVal 0 ds then (max_val, s.dropWhile isdigit, true)
  else ((if neg then (2 ^ 64 - natVal 0 ds) % 2 ^ 64 else natVal 0 ds), s.dropWhile isdigit, false)

/-- Model of C `strtoull(nptr, &end, 10)`: skip whitespace, consume an
optional `+`/`-` sign, then a digit run, per `strtoull_scan`. Returns
(value, end pointer as remaining suffix, ERANGE flag). -/
def strtoull_model (l : List Char) : Nat × List Char × Bool :=
  match l.dropWhile isspace with
  | '-' :: r => strtoull_scan r true l
  | '+' :: r => strtoull_scan r false l
  | w => strtoull_scan w false l

/-- Mirrors `parse_strtoull`: manual whitespace skip, empty on end-of-input,
then two `strtoull` calls; after each, error when the end pointer equals the
start pointer (no conversion) or the value is `ULLONG_MAX` with `errno ==
ERANGE` (`errno`, cleared before the first call, persists into the second
test, hence the `er1 || er2`). -/
def parse_strtoull (str : List Char) : Result :=
  match str.dropWhile isspace with
  | [] => ⟨0, 0, ErrCode.empty⟩
  | c :: cs =>
    let (row, rest, er1) := strtoull_model (c :: cs)
    if rest = c :: cs ∨ (row = max_val ∧ er1 = true) then ⟨0, 0, ErrCode.error⟩
    else
      let (col, rest2, er2) := strtoull_model rest
      if rest2 = rest ∨ (col = max_val ∧ (er1 || er2) = true) then ⟨row, 0, ErrCode.error⟩
      else ⟨row, col, ErrCode.success⟩

/-- Iteration count of the whitespace-skipping loop (one unit per loop test,
including the final failing one). -/
def skip_ws_cost (l : List Char) : Nat :=
  match l with
  | [] => 1
  | c :: cs => if isspace c then 1 + skip_ws_cost cs else 1

/-- Iteration count of the `parse_single` digit loop. -/
def parse_single_cost (l : List Char) (res : Nat) : Nat :=
  match l with
  | [] => 1
  | c :: cs =>
    if isdigit c then
      if res < risky_val ∨ (res = risky_val ∧ dval c ≤ max_digit) then
        1 + parse_single_cost cs ((res * 10 + dval c) % 2 ^ 64)
      else 1
    else 1

/-- Total loop-iteration count of `parse_custom` on an input: the sum of the
costs of the two whitespace skips and the two digit scans it performs (each
constant-work branch test counted as one unit). -/
def parse_custom_cost (str : List Char) : Nat :=
  skip_ws_cost str +
  match str.dropWhile isspace with
  | [] => 1
  | c :: cs =>
    if isdigit c then
      parse_single_cost (c :: cs) 0 +
      match parse_single (c :: cs) with
      | none => 1
      | some (_, rest) =>
        skip_ws_cost rest +
        match rest.dropWhile isspace with
        | [] => 1
        | c2 :: cs2 =>
          if isdigit c2 then parse_single_cost (c2 :: cs2) 0 + 1 else 1
    else 1

/-! ### Basic facts about the constants and character classes -/

lemma max_val_eq : max_val = 18446744073709551615 := by norm_num [max_val]

lemma risky_val_eq : risky_val = 1844674407370955161 := by
  norm_num [risky_val, max_val]

lemma max_digit_eq : max_digit = 5 := by
  norm_num [max_digit, max_val]

lemma dval_le_nine (c : Char) (h : isdigit c = true) : dval c ≤ 9 := by
  simp only [isdigit, Bool.and_eq_true, decide_eq_true_eq] at h
  simp only [dval]
  omega

/-- The overflow guard of `parse_single` holds exactly when the multiply-add
stays within the 64-bit range. -/
lemma guard_iff (res d : Nat) (hd : d ≤ 9) :
    (res < risky_val ∨ (res = risky_val ∧ d ≤ max_digit)) ↔ res * 10 + d ≤ max_val := by
  rw [risky_val_eq, max_digit_eq, max_val_eq]
  omega

lemma space_not_digit (c : Char) (h : isspace c = true) : isdigit c = false := by
  simp only [isspace, Bool.or_eq_true, decide_eq_true_eq] at h
  simp only [isdigit, Bool.and_eq_false_iff, decide_eq_false_iff_not]
  omega

lemma digit_not_space (c : Char) (h : isdigit c = true) : isspace c = false := by
  simp only [isdigit, Bool.and_eq_true, decide_eq_true_eq] at h
  simp only [isspace, Bool.or_eq_false_iff, decide_eq_false_iff_not]
  omega

/-! ### Characterization of the digit scanner -/

lemma natVal_nil (res : Nat) : natVal res [] = res := rfl

lemma natVal_cons (res : Nat) (c : Char) (ds : List Char) :
    natVal res (c :: ds) = natVal (res * 10 + dval c) ds := rfl

lemma le_natVal (ds : List Char) (res : Nat) : res ≤ natVal res ds := by
  induction ds generalizing res with
  | nil => simp [natVal_nil]
  | cons c cs ih =>
    rw [natVal_cons]
    calc res ≤ res * 10 + dval c := by omega
    _ ≤ natVal (res * 10 + dval c) cs := ih _

/-- When the decimal value of the digit run fits in 64 bits, `parse_single`
consumes exactly the run and returns its value. -/
lemma parse_single_loop_success (l : List Char) (res : Nat) (hres : res ≤ max_val)
    (hval : natVal res (l.takeWhile isdigit) ≤ max_val) :
    parse_single_loop l res = some (natVal res (l.takeWhile isdigit), l.dropWhile isdigit) := by
  induction l generalizing res with
  | nil => simp [parse_single_loop, natVal_nil]
  | cons c cs ih =>
    by_cases hc : isdigit c
    · rw [List.takeWhile_cons, if_pos hc] at hval ⊢
      rw [natVal_cons] at hval ⊢
      rw [List.dropWhile_cons_of_pos hc]
      have hstep : res * 10 + dval c ≤ max_val := le_trans (le_natVal _ _) hval
      have hguard : res < risky_val ∨ (res = risky_val ∧ dval c ≤ max_digit) :=
        (guard_iff _ _ (dval_le_nine c hc)).mpr hstep
      have hmod : (res * 10 + dval c) % 2 ^ 64 = res * 10 + dval c :=
        Nat.mod_eq_of_lt (by rw [max_val_eq] at hstep; omega)
      rw [parse_single_loop]
      simp only [hc, if_true, if_pos hguard, hmod]
      exact ih _ hstep (by rw [hmod] at *; exact hval)
    · rw [List.takeWhile_cons, if_neg hc, natVal_nil]
      rw [List.dropWhile_cons_of_neg hc]
      rw [parse_single_loop]
      simp [hc]

/-- When the decimal value of the digit run exceeds 64 bits, `parse_single`
fails: the guard is checked before every multiply-add, so the first step that
would overflow aborts the scan. -/
lemma parse_single_loop_overflow (l : List Char) (res : Nat) (hres : res ≤ max_val)
    (hval : max_val < natVal res (l.takeWhile isdigit)) :
    parse_single_loop l res = none := by
  induction l generalizing res with
  | nil => simp [natVal_nil] at hval; omega
  | cons c cs ih =>
    by_cases hc : isdigit c
    · rw [List.takeWhile_cons, if_pos hc, natVal_cons] at hval
      by_cases hstep : res * 10 + dval c ≤ max_val
      · have hguard : res < risky_val ∨ (res = risky_val ∧ dval c ≤ max_digit) :=
          (guard_iff _ _ (dval_le_nine c hc)).mpr hstep
        have hmod : (res * 10 + dval c) % 2 ^ 64 = res * 10 + dval c :=
          Nat.mod_eq_of_lt (by rw [max_val_eq] at hstep; omega)
        rw [parse_single_loop]
        simp only [hc, if_true, if_pos hguard, hmod]
        exact ih _ hstep hval
      · have hguard : ¬(res < risky_val ∨ (res = risky_val ∧ dval c ≤ max_digit)) := by
          intro h
          exact hstep ((guard_iff _ _ (dval_le_nine c hc)).mp h)
        rw [parse_single_loop]
        simp [hc, hguard]
    · rw [List.takeWhile_cons, if_neg hc, natVal_nil] at hval
      omega

/-- A successful scan started from an in-range accumulator returns an
in-range value: the value accumulation never overflowed. -/
lemma parse_single_loop_val_le (l : List Char) (res v : Nat) (rest : List Char)
    (hres : res ≤ max_val) (h : parse_single_loop l res = some (v, rest)) : v ≤ max_val := by
  by_cases hval : natVal res (l.takeWhile isdigit) ≤ max_val
  · rw [parse_single_loop_success l res hres hval] at h
    cases h
    exact hval
  · rw [parse_single_loop_overflow l res hres (by omega)] at h
    cases h

/-- The scanner only ever discards characters: the remaining suffix it
returns is no longer than its input. -/
lemma parse_single_loop_rest_length (l : List Char) (res v : Nat) (rest : List Char)
    (h : parse_single_loop l res = some (v, rest)) : rest.length ≤ l.length := by
  induction l generalizing res with
  | nil =>
    rw [parse_single_loop] at h
    cases h
    exact Nat.le_refl _
  | cons c cs ih =>
    rw [parse_single_loop] at h
    by_cases hc : isdigit c
    · simp only [hc, if_true] at h
      by_cases hguard : res < risky_val ∨ (res = risky_val ∧ dval c ≤ max_digit)
      · rw [if_pos hguard] at h
        exact Nat.le_trans (ih _ h) (by simp)
      · rw [if_neg hguard] at h
        cases h
    · simp only [hc] at h
      cases h
      exact Nat.le_refl _

lemma length_dropWhile_le (p : Char → Bool) (l : List Char) :
    (l.dropWhile p).length ≤ l.length := by
  induction l with
  | nil => simp
  | cons c cs ih =>
    rw [List.dropWhile_cons]
    by_cases hc : p c
    · simp only [hc, if_true]
      exact Nat.le_trans ih (by simp)
    · simp [hc]

lemma dropWhile_head_false (p : Char → Bool) (l : List Char) (c : Char) (r : List Char)
    (h : l.dropWhile p = c :: r) : p c = false := by
  induction l with
  | nil => cases h
  | cons a as ih =>
    rw [List.dropWhile_cons] at h
    by_cases ha : p a
    · rw [if_pos ha] at h
      exact ih h
    · rw [if_neg ha] at h
      cases h
      simpa using ha

/-- Characters already skipped by a whitespace run are unaffected by what is
appended after the input. -/
lemma dropWhile_append_cons (p : Char → Bool) (l t : List Char) (c : Char) (r : List Char)
    (h : l.dropWhile p = c :: r) : (l ++ t).dropWhile p = c :: (r ++ t) := by
  induction l with
  | nil => cases h
  | cons a as ih =>
    rw [List.cons_append, List.dropWhile_cons]
    rw [List.dropWhile_cons] at h
    by_cases ha : p a
    · rw [if_pos ha] at h ⊢
      exact ih h
    · rw [if_neg ha] at h ⊢
      cases h
      rfl

/-- Appending content after the input does not disturb a successful scan, as
long as the appended content cannot extend the digit run the scan stopped at
(that is: the scan stopped strictly inside the input, or the appended content
does not begin with a digit). -/
lemma parse_single_loop_append (l t : List Char) (res v : Nat) (rest : List Char)
    (h : parse_single_loop l res = some (v, rest))
    (hrest : rest = [] → ∀ c0, t.head? = some c0 → isdigit c0 = false) :
    parse_single_loop (l ++ t) res = some (v, rest ++ t) := by
  induction l generalizing res with
  | nil =>
    rw [parse_single_loop] at h
    cases h
    simp only [List.nil_append]
    cases t with
    | nil => rw [parse_single_loop]
    | cons c0 ts =>
      have hc0 : isdigit c0 = false := hrest rfl c0 rfl
      rw [parse_single_loop]
      simp [hc0]
  | cons c cs ih =>
    rw [parse_single_loop] at h
    rw [List.cons_append, parse_single_loop]
    by_cases hc : isdigit c
    · simp only [hc, if_true] at h ⊢
      by_cases hguard : res < risky_val ∨ (res = risky_val ∧ dval c ≤ max_digit)
      · rw [if_pos hguard] at h ⊢
        exact ih _ h
      · rw [if_neg hguard] at h
        cases h
    · simp only [hc] at h ⊢
      cases h
      simp

/-! ### Inversion of `parse_custom` on success -/

/-- Inversion: a success of `parse_custom` exposes the full parse structure —
a digit at the cursor after each whitespace skip and a successful scan for
each of the two integers. -/
lemma parse_custom_success_inv (str : List Char)
    (h : (parse_custom str).err = ErrCode.success) :
    ∃ c1 l1 v1 rest c2 l2 v2 rest2,
      str.dropWhile isspace = c1 :: l1 ∧ isdigit c1 = true ∧
      parse_single (c1 :: l1) = some (v1, rest) ∧
      rest.dropWhile isspace = c2 :: l2 ∧ isdigit c2 = true ∧
      parse_single (c2 :: l2) = some (v2, rest2) ∧
      parse_custom str = ⟨v1, v2, ErrCode.success⟩ := by
  cases hd : str.dropWhile isspace with
  | nil => simp [parse_custom, hd] at h
  | cons c1 l1 =>
    by_cases hc1 : isdigit c1
    · cases hps : parse_single (c1 :: l1) with
      | none => simp [parse_custom, hd, hc1, hps] at h
      | some p1 =>
        obtain ⟨v1, rest⟩ := p1
        cases hd2 : rest.dropWhile isspace with
        | nil => simp [parse_custom, hd, hc1, hps, hd2] at h
        | cons c2 l2 =>
          by_cases hc2 : isdigit c2
          · cases hps2 : parse_single (c2 :: l2) with
            | none => simp [parse_custom, hd, hc1, hps, hd2, hc2, hps2] at h
            | some p2 =>
              obtain ⟨v2, rest2⟩ := p2
              refine ⟨c1, l1, v1, rest, c2, l2, v2, rest2, rfl, hc1, hps, hd2, hc2, hps2, ?_⟩
              simp [parse_custom, hd, hc1, hps, hd2, hc2, hps2]
          · simp [parse_custom, hd, hc1, hps, hd2, hc2] at h
    · simp [parse_custom, hd, hc1] at h

/-! ### Position-wise congruence: whitespace characters are interchangeable -/

/-- Two characters are interchangeable for the parser when they are both
whitespace, or are equal. -/
def WSRel (c1 c2 : Char) : Prop :=
  isspace c1 = isspace c2 ∧ (isspace c1 = false → c1 = c2)

lemma wsrel_refl (c : Char) : WSRel c c := ⟨rfl, fun _ => rfl⟩

lemma wsrel_isdigit (c1 c2 : Char) (h : WSRel c1 c2) : isdigit c1 = isdigit c2 := by
  by_cases hs : isspace c1 = true
  · rw [space_not_digit c1 hs, space_not_digit c2 (h.1 ▸ hs)]
  · rw [h.2 (by simpa using hs)]

lemma forall2_dropWhile (l1 l2 : List Char) (h : List.Forall₂ WSRel l1 l2) :
    List.Forall₂ WSRel (l1.dropWhile isspace) (l2.dropWhile isspace) := by
  induction h with
  | nil => simp
  | cons ha htail ih =>
    rename_i a b as bs
    rw [List.dropWhile_cons, List.dropWhile_cons]
    by_cases hs : isspace a = true
    · rw [if_pos hs, if_pos (ha.1 ▸ hs)]
      exact ih
    · have hs' : isspace a = false := by simpa using hs
      rw [if_neg hs, if_neg (by rw [← ha.1]; exact hs)]
      exact List.Forall₂.cons ha htail

/-- The scanner cannot tell two position-wise interchangeable inputs apart:
it fails on both or succeeds on both with the same value and interchangeable
remainders. -/
lemma parse_single_loop_rel (l1 l2 : List Char) (h : List.Forall₂ WSRel l1 l2) (res : Nat) :
    (parse_single_loop l1 res = none ∧ parse_single_loop l2 res = none) ∨
    ∃ v r1 r2, parse_single_loop l1 res = some (v, r1) ∧
      parse_single_loop l2 res = some (v, r2) ∧ List.Forall₂ WSRel r1 r2 := by
  induction h generalizing res with
  | nil => exact Or.inr ⟨res, [], [], rfl, rfl, List.Forall₂.nil⟩
  | cons ha htail ih =>
    rename_i a b as bs
    have hdig : isdigit a = isdigit b := wsrel_isdigit a b ha
    by_cases hd : isdigit a
    · have hab : a = b := ha.2 (digit_not_space a hd)
      subst hab
      by_cases hguard : res < risky_val ∨ (res = risky_val ∧ dval a ≤ max_digit)
      · have e1 : parse_single_loop (a :: as) res =
            parse_single_loop as ((res * 10 + dval a) % 2 ^ 64) := by
          rw [parse_single_loop]; simp [hd, hguard]
        have e2 : parse_single_loop (a :: bs) res =
            parse_single_loop bs ((res * 10 + dval a) % 2 ^ 64) := by
          rw [parse_single_loop]; simp [hd, hguard]
        rw [e1, e2]
        exact ih _
      · have e1 : parse_single_loop (a :: as) res = none := by
          rw [parse_single_loop]; simp [hd, hguard]
        have e2 : parse_single_loop (a :: bs) res = none := by
          rw [parse_single_loop]; simp [hd, hguard]
        exact Or.inl ⟨e1, e2⟩
    · have hd2 : ¬ isdigit b = true := by rw [← hdig]; exact hd
      refine Or.inr ⟨res, a :: as, b :: bs, ?_, ?_, List.Forall₂.cons ha htail⟩
      · rw [parse_single_loop]; simp [hd]
      · rw [parse_single_loop]; simp [hd2]

/-- The full parser cannot tell two position-wise interchangeable inputs
apart: it returns identical results (all fields included). -/
lemma parse_custom_rel (str1 str2 : List Char) (h : List.Forall₂ WSRel str1 str2) :
    parse_custom str1 = parse_custom str2 := by
  have h1 := forall2_dropWhile str1 str2 h
  cases hd1 : str1.dropWhile isspace with
  | nil =>
    rw [hd1] at h1
    have hd2 : str2.dropWhile isspace = [] := by
      cases h2 : str2.dropWhile isspace with
      | nil => rfl
      | cons x xs => rw [h2] at h1; cases h1
    simp [parse_custom, hd1, hd2]
  | cons c1 r1 =>
    rw [hd1] at h1
    cases hd2 : str2.dropWhile isspace with
    | nil => rw [hd2] at h1; cases h1
    | cons c2 r2 =>
      rw [hd2] at h1
      cases h1 with
      | cons hc htail =>
        have hdig : isdigit c1 = isdigit c2 := wsrel_isdigit c1 c2 hc
        by_cases hd : isdigit c1
        · rcases parse_single_loop_rel (c1 :: r1) (c2 :: r2) (List.Forall₂.cons hc htail) 0 with
            ⟨hn1, hn2⟩ | ⟨v, s1, s2, hs1, hs2, hrel⟩
          · simp [parse_custom, hd1, hd2, hd, ← hdig, parse_single, hn1, hn2]
          · have h2 := forall2_dropWhile s1 s2 hrel
            cases hds1 : s1.dropWhile isspace with
            | nil =>
              rw [hds1] at h2
              have hds2 : s2.dropWhile isspace = [] := by
                cases h3 : s2.dropWhile isspace with
                | nil => rfl
                | cons x xs => rw [h3] at h2; cases h2
              simp [parse_custom, hd1, hd2, hd, ← hdig, parse_single, hs1, hs2, hds1, hds2]
            | cons c3 s3 =>
              rw [hds1] at h2
              cases hds2 : s2.dropWhile isspace with
              | nil => rw [hds2] at h2; cases h2
              | cons c4 s4 =>
                rw [hds2] at h2
                cases h2 with
                | cons hc3 htail3 =>
                  have hdig3 : isdigit c3 = isdigit c4 := wsrel_isdigit c3 c4 hc3
                  by_cases hd3 : isdigit c3
                  · rcases parse_single_loop_rel (c3 :: s3) (c4 :: s4)
                        (List.Forall₂.cons hc3 htail3) 0 with
                      ⟨hn1, hn2⟩ | ⟨w, t1, t2, ht1, ht2, _⟩
                    · simp [parse_custom, hd1, hd2, hd, ← hdig, parse_single, hs1, hs2,
                        hds1, hds2, hd3, ← hdig3, hn1, hn2]
                    · simp [parse_custom, hd1, hd2, hd, ← hdig, parse_single, hs1, hs2,
                        hds1, hds2, hd3, ← hdig3, ht1, ht2]
                  · simp [parse_custom, hd1, hd2, hd, ← hdig, parse_single, hs1, hs2,
                      hds1, hds2, hd3, ← hdig3]
        · simp [parse_custom, hd1, hd2, hd, ← hdig]

lemma forall2_append (l1 l2 u1 u2 : List Char) (h1 : List.Forall₂ WSRel l1 l2)
    (h2 : List.Forall₂ WSRel u1 u2) : List.Forall₂ WSRel (l1 ++ u1) (l2 ++ u2) := by
  induction h1 with
  | nil => simpa using h2
  | cons ha _ ih => exact List.Forall₂.cons ha ih

lemma forall2_spaces (w1 w2 : List Char) (hw1 : ∀ c ∈ w1, isspace c = true)
    (hw2 : ∀ c ∈ w2, isspace c = true) (hlen : w1.length = w2.length) :
    List.Forall₂ WSRel w1 w2 := by
  induction w1 generalizing w2 with
  | nil =>
    cases w2 with
    | nil => exact List.Forall₂.nil
    | cons y ys => simp at hlen
  | cons x xs ih =>
    cases w2 with
    | nil => simp at hlen
    | cons y ys =>
      have hx : isspace x = true := hw1 x (by simp)
      have hy : isspace y = true := hw2 y (by simp)
      refine List.Forall₂.cons ⟨hx.trans hy.symm, fun hf => ?_⟩ ?_
      · rw [hx] at hf; cases hf
      · exact ih ys (fun c hc => hw1 c (by simp [hc]))
          (fun c hc => hw2 c (by simp [hc])) (by simpa using hlen)

lemma forall2_wsrefl (l : List Char) : List.Forall₂ WSRel l l :=
  List.forall₂_same.mpr (fun x _ => wsrel_refl x)

/-- `parse_custom` cannot return `empty` once the whitespace skip stopped at
an actual character. -/
lemma parse_custom_ne_empty (str : List Char) (c : Char) (cs : List Char)
    (hd : str.dropWhile isspace = c :: cs) : (parse_custom str).err ≠ ErrCode.empty := by
  by_cases hc : isdigit c
  · cases hps : parse_single (c :: cs) with
    | none => simp [parse_custom, hd, hc, hps]
    | some p =>
      obtain ⟨v, rest⟩ := p
      cases hd2 : rest.dropWhile isspace with
      | nil => simp [parse_custom, hd, hc, hps, hd2]
      | cons c2 cs2 =>
        by_cases hc2 : isdigit c2
        · cases hps2 : parse_single (c2 :: cs2) with
          | none => simp [parse_custom, hd, hc, hps, hd2, hc2, hps2]
          | some p2 =>
            obtain ⟨v2, r2⟩ := p2
            simp [parse_custom, hd, hc, hps, hd2, hc2, hps2]
        · simp [parse_custom, hd, hc, hps, hd2, hc2]
  · simp [parse_custom, hd, hc]

/-- Bridge between the `from_chars` model and the manual scanner: on a
digit-initial input the two agree — same value and end position on success,
and out-of-range exactly when the manual overflow guard trips. -/
lemma from_chars_eq_parse_single (c : Char) (cs : List Char) (hc : isdigit c = true) :
    from_chars_u64 (c :: cs) =
      match parse_single (c :: cs) with
      | some (v, rest) => (FCErr.ok, v, rest)
      | none => (FCErr.result_out_of_range, 0, (c :: cs).dropWhile isdigit) := by
  have htw : (c :: cs).takeWhile isdigit = c :: cs.takeWhile isdigit := by
    rw [List.takeWhile_cons, if_pos hc]
  by_cases hv : natVal 0 ((c :: cs).takeWhile isdigit) ≤ max_val
  · rw [parse_single, parse_single_loop_success _ 0 (Nat.zero_le _) hv]
    simp only [from_chars_u64, htw]
    rw [if_neg (by simp), if_neg (by rw [← htw]; omega)]
  · rw [parse_single, parse_single_loop_overflow _ 0 (Nat.zero_le _) (by omega)]
    simp only [from_chars_u64, htw]
    rw [if_neg (by simp), if_pos (by rw [← htw]; omega)]

lemma from_chars_invalid (c : Char) (cs : List Char) (hc : isdigit c = false) :
    from_chars_u64 (c :: cs) = (FCErr.invalid_argument, 0, c :: cs) := by
  simp [from_chars_u64, List.takeWhile_cons, hc]

lemma skip_ws_cost_le (l : List Char) : skip_ws_cost l ≤ l.length + 1 := by
  induction l with
  | nil => simp [skip_ws_cost]
  | cons c cs ih =>
    rw [skip_ws_cost]
    by_cases hc : isspace c
    · rw [if_pos hc]
      simp only [List.length_cons]
      omega
    · rw [if_neg hc]; simp

lemma parse_single_cost_le (l : List Char) (res : Nat) : parse_single_cost l res ≤ l.length + 1 := by
  induction l generalizing res with
  | nil => simp [parse_single_cost]
  | cons c cs ih =>
    rw [parse_single_cost]
    by_cases hc : isdigit c
    · rw [if_pos hc]
      by_cases hg : res < risky_val ∨ (res = risky_val ∧ dval c ≤ max_digit)
      · rw [if_pos hg]
        have := ih ((res * 10 + dval c) % 2 ^ 64)
        simp only [List.length_cons]
        omega
      · rw [if_neg hg]; simp
    · rw [if_neg hc]; simp

/-! ### The claims -/

/-- C1: overflow detection in the scanner `parse_single` happens before each
multiply-add, so a digit run whose decimal value is exactly `2 ^ 64 - 1`
parses to that value with the cursor one past the run, while a digit run
whose decimal value is `2 ^ 64` or larger (in particular any run of 20 or
more significant digits) makes the scan fail instead of wrapping or
truncating. The run at the cursor is `takeWhile isdigit`, the position one
past it is `dropWhile isdigit`, and its decimal value is `natVal 0`. -/
theorem claim_c1 (l : List Char) :
    (natVal 0 (l.takeWhile isdigit) = 2 ^ 64 - 1 →
      parse_single l = some (2 ^ 64 - 1, l.dropWhile isdigit)) ∧
    (2 ^ 64 ≤ natVal 0 (l.takeWhile isdigit) → parse_single l = none) := by
  have hmv : max_val = 2 ^ 64 - 1 := rfl
  constructor
  · intro h
    have h1 : natVal 0 (l.takeWhile isdigit) ≤ max_val := by rw [hmv, h]
    have h2 := parse_single_loop_success l 0 (Nat.zero_le _) h1
    rw [parse_single, h2, h]
  · intro h
    have h1 : max_val < natVal 0 (l.takeWhile isdigit) := by
      rw [hmv]
      have hp : (0 : Nat) < 2 ^ 64 := Nat.pos_pow_of_pos 64 (by omega)
      omega
    exact parse_single_loop_overflow l 0 (Nat.zero_le _) h1

/-- Digit characters of `18446744073709551615`, that is `2 ^ 64 - 1`. -/
def digitsOfMax : List Char :=
  ['1', '8', '4', '4', '6', '7', '4', '4', '0', '7', '3', '7', '0', '9', '5', '5', '1', '6', '1', '5']

/-- Digit characters of `18446744073709551616`, that is `2 ^ 64`. -/
def digitsOfOverflow : List Char :=
  ['1', '8', '4', '4', '6', '7', '4', '4', '0', '7', '3', '7', '0', '9', '5', '5', '1', '6', '1', '6']

/-- C1 witness: the boundary instances, evaluated on the concrete 20-digit
runs for `2 ^ 64 - 1` (scan succeeds with that value) and `2 ^ 64` (scan
fails). -/
theorem claim_c1_witness :
    (natVal 0 (digitsOfMax.takeWhile isdigit) = 2 ^ 64 - 1 ∧
      parse_single digitsOfMax = some (2 ^ 64 - 1, digitsOfMax.dropWhile isdigit)) ∧
    (2 ^ 64 ≤ natVal 0 (digitsOfOverflow.takeWhile isdigit) ∧
      parse_single digitsOfOverflow = none) :=
  ⟨⟨by decide, (claim_c1 digitsOfMax).1 (by decide)⟩,
   ⟨by decide, (claim_c1 digitsOfOverflow).2 (by decide)⟩⟩

/-- C2 counterexample: the five strategies do not agree on every input. On
the input "-5 10" the C-library conversion in `parse_strtoull` accepts the
minus sign and wraps, yielding a success, while `parse_custom` rejects the
non-digit leading character, so the two outcomes are not structurally
equal. -/
theorem claim_c2_counterexample :
    resultEq (parse_strtoull ['-', '5', ' ', '1', '0'])
      (parse_custom ['-', '5', ' ', '1', '0']) = false := by
  decide

/-- C2 amended: of the five strategies, `parse_from_chars` and `parse_custom`
produce structurally equal outcomes on every input; the strategies built on C
library conversions (`parse_strtoull`, and likewise `sscanf` and the stream
extraction) accept a leading sign that the other two reject, so they can
disagree, as the counterexample shows. -/
theorem claim_c2_amended (str : List Char) :
    resultEq (parse_from_chars str) (parse_custom str) = true := by
  cases hd : str.dropWhile isspace with
  | nil => simp [parse_from_chars, parse_custom, hd, resultEq]
  | cons c cs =>
    by_cases hc : isdigit c
    · have hfc := from_chars_eq_parse_single c cs hc
      cases hps : parse_single (c :: cs) with
      | none =>
        rw [hps] at hfc
        simp [parse_from_chars, parse_custom, hd, hc, hps, hfc, resultEq]
      | some p =>
        obtain ⟨v, rest⟩ := p
        rw [hps] at hfc
        cases hd2 : rest.dropWhile isspace with
        | nil => simp [parse_from_chars, parse_custom, hd, hc, hps, hfc, hd2, resultEq]
        | cons c2 cs2 =>
          by_cases hc2 : isdigit c2
          · have hfc2 := from_chars_eq_parse_single c2 cs2 hc2
            cases hps2 : parse_single (c2 :: cs2) with
            | none =>
              rw [hps2] at hfc2
              simp [parse_from_chars, parse_custom, hd, hc, hps, hfc, hd2, hc2, hps2, hfc2,
                resultEq]
            | some p2 =>
              obtain ⟨v2, rest2⟩ := p2
              rw [hps2] at hfc2
              simp [parse_from_chars, parse_custom, hd, hc, hps, hfc, hd2, hc2, hps2, hfc2,
                resultEq]
          · have hfc2 := from_chars_invalid c2 cs2 (by simpa using hc2)
            simp [parse_from_chars, parse_custom, hd, hc, hps, hfc, hd2, hc2, hfc2, resultEq]
    · have hfc := from_chars_invalid c cs (by simpa using hc)
      simp [parse_from_chars, parse_custom, hd, hc, hfc, resultEq]

/-- C3: a `success` outcome of `parse_custom` requires that at least one
digit was consumed for each of the two integers (the cursor sat on a digit
when each scan started, so each scan consumed a nonempty run) and that
neither accumulation overflowed the 64-bit unsigned range (both returned
values are at most `2 ^ 64 - 1`). -/
theorem claim_c3 (str : List Char) (h : (parse_custom str).err = ErrCode.success) :
    (∃ c1 l1, str.dropWhile isspace = c1 :: l1 ∧ isdigit c1 = true) ∧
    (∃ c1 l1 v1 rest c2 l2, str.dropWhile isspace = c1 :: l1 ∧
      parse_single (c1 :: l1) = some (v1, rest) ∧
      rest.dropWhile isspace = c2 :: l2 ∧ isdigit c2 = true) ∧
    (parse_custom str).row ≤ 2 ^ 64 - 1 ∧ (parse_custom str).col ≤ 2 ^ 64 - 1 := by
  obtain ⟨c1, l1, v1, rest, c2, l2, v2, rest2, hd, hc1, hps, hd2, hc2, hps2, heq⟩ :=
    parse_custom_success_inv str h
  refine ⟨⟨c1, l1, hd, hc1⟩, ⟨c1, l1, v1, rest, c2, l2, hd, hps, hd2, hc2⟩, ?_, ?_⟩
  · rw [heq]
    exact parse_single_loop_val_le (c1 :: l1) 0 v1 rest (Nat.zero_le _) hps
  · rw [heq]
    exact parse_single_loop_val_le (c2 :: l2) 0 v2 rest2 (Nat.zero_le _) hps2

/-- C3 witness: on the concrete success input "5 6" both parsed values are
within the 64-bit range. -/
theorem claim_c3_witness :
    (parse_custom ['5', ' ', '6']).row ≤ 2 ^ 64 - 1 ∧
    (parse_custom ['5', ' ', '6']).col ≤ 2 ^ 64 - 1 :=
  (claim_c3 ['5', ' ', '6'] (by decide)).2.2

/-- C4: `parse_custom` returns `empty` exactly when the input has no
non-whitespace character: the empty string and all-whitespace strings, and
only those. -/
theorem claim_c4 (str : List Char) :
    (parse_custom str).err = ErrCode.empty ↔ ∀ c ∈ str, isspace c = true := by
  constructor
  · intro h
    have hd : str.dropWhile isspace = [] := by
      cases hd : str.dropWhile isspace with
      | nil => rfl
      | cons c cs => exact absurd h (parse_custom_ne_empty str c cs hd)
    have h2 := List.dropWhile_eq_nil_iff.mp hd
    simpa using h2
  · intro h
    have hd : str.dropWhile isspace = [] := List.dropWhile_eq_nil_iff.mpr (by simpa using h)
    simp [parse_custom, hd]

/-- C5: if one valid integer is scanned and then, after skipping whitespace,
either the end of the input is reached or the next character is not a digit,
`parse_custom` returns `error`: a single valid integer is never a success. -/
theorem claim_c5 (str : List Char) (c1 : Char) (l1 : List Char) (v : Nat) (rest : List Char)
    (hd : str.dropWhile isspace = c1 :: l1) (hc1 : isdigit c1 = true)
    (hps : parse_single (c1 :: l1) = some (v, rest))
    (hafter : rest.dropWhile isspace = [] ∨
      ∃ c2 l2, rest.dropWhile isspace = c2 :: l2 ∧ isdigit c2 = false) :
    (parse_custom str).err = ErrCode.error := by
  rcases hafter with h2 | ⟨c2, l2, h2, hc2⟩
  · simp [parse_custom, hd, hc1, hps, h2]
  · simp [parse_custom, hd, hc1, hps, h2, hc2]

/-- C5 witness: the input "5" holds a single valid integer followed by
end-of-input and is classified `error`. -/
theorem claim_c5_witness : (parse_custom ['5']).err = ErrCode.error :=
  claim_c5 ['5'] '5' [] 5 [] (by decide) (by decide) (by decide) (Or.inl (by decide))

/-- C6: appending a suffix to a successfully parsed input does not change the
outcome: if `parse_custom P` is `success` with values `r`, `c`, then
`parse_custom (P ++ t)` is the same success for every suffix `t` that does
not violate the whitespace boundary of the parse — that is, every `t` not
beginning with a digit (a digit-initial suffix would merge into the second
integer's digit run instead of standing as trailing content). Trailing
garbage and additional whitespace-separated numeric tokens are both
covered. -/
theorem claim_c6 (P t : List Char) (r c : Nat)
    (hP : parse_custom P = ⟨r, c, ErrCode.success⟩)
    (ht : ∀ c0, t.head? = some c0 → isdigit c0 = false) :
    parse_custom (P ++ t) = ⟨r, c, ErrCode.success⟩ := by
  have hsucc : (parse_custom P).err = ErrCode.success := by rw [hP]
  obtain ⟨c1, l1, v1, rest, c2, l2, v2, rest2, hd, hc1, hps, hd2, hc2, hps2, heq⟩ :=
    parse_custom_success_inv P hsucc
  have hd' : (P ++ t).dropWhile isspace = c1 :: (l1 ++ t) :=
    dropWhile_append_cons isspace P t c1 l1 hd
  have hrest_ne : rest ≠ [] := by
    intro h0
    rw [h0] at hd2
    cases hd2
  have hps' : parse_single_loop ((c1 :: l1) ++ t) 0 = some (v1, rest ++ t) :=
    parse_single_loop_append (c1 :: l1) t 0 v1 rest hps (fun h0 => absurd h0 hrest_ne)
  have hd2' : (rest ++ t).dropWhile isspace = c2 :: (l2 ++ t) :=
    dropWhile_append_cons isspace rest t c2 l2 hd2
  have hps2' : parse_single_loop ((c2 :: l2) ++ t) 0 = some (v2, rest2 ++ t) :=
    parse_single_loop_append (c2 :: l2) t 0 v2 rest2 hps2 (fun _ => ht)
  rw [List.cons_append] at hps' hps2'
  have hfinal : parse_custom (P ++ t) = ⟨v1, v2, ErrCode.success⟩ := by
    simp [parse_custom, hd', hc1, parse_single, hps', hd2', hc2, hps2']
  exact hfinal.trans (heq.symm.trans hP)

/-- C6 witness: "5 1" parses as `success 5 1`; appending the non-digit
suffix "x" leaves the outcome unchanged. -/
theorem claim_c6_witness : parse_custom (['5', ' ', '1'] ++ ['x']) = ⟨5, 1, ErrCode.success⟩ :=
  claim_c6 ['5', ' ', '1'] ['x'] 5 1 (by decide)
    (fun c0 h => by simp at h; subst h; decide)

/-- C7: replacing a whitespace run anywhere in the input by any other
whitespace run of the same non-zero length (spaces, tabs and newlines mixed
arbitrarily) leaves the result of `parse_custom` unchanged. -/
theorem claim_c7 (a w1 w2 b : List Char) (hw1 : ∀ c ∈ w1, isspace c = true)
    (hw2 : ∀ c ∈ w2, isspace c = true) (hlen : w1.length = w2.length)
    (_hne : 0 < w1.length) :
    parse_custom (a ++ w1 ++ b) = parse_custom (a ++ w2 ++ b) := by
  apply parse_custom_rel
  exact forall2_append (a ++ w1) (a ++ w2) b b
    (forall2_append a a w1 w2 (forall2_wsrefl a) (forall2_spaces w1 w2 hw1 hw2 hlen))
    (forall2_wsrefl b)

/-- C7 witness: replacing the single-space run of "1 2" by a tab does not
change the parse. -/
theorem claim_c7_witness :
    parse_custom (['1'] ++ [' '] ++ ['2']) = parse_custom (['1'] ++ ['\t'] ++ ['2']) :=
  claim_c7 ['1'] [' '] ['\t'] ['2'] (by decide) (by decide) (by decide) (by decide)

/-- C8: the structural equality on results used by the callers. Two results
compare equal exactly when both are successes with matching `row` and
matching `col`, or both are non-successes of the same kind (`empty` with
`empty`, `error` with `error`); a success never equals a non-success. -/
theorem claim_c8 (a b : Result) :
    resultEq a b = true ↔
      ((a.err = ErrCode.success ∧ b.err = ErrCode.success ∧ a.row = b.row ∧ a.col = b.col) ∨
       (a.err = b.err ∧ a.err ≠ ErrCode.success)) := by
  obtain ⟨ar, ac, ae⟩ := a
  obtain ⟨br, bc, be⟩ := b
  cases ae <;> cases be
  all_goals simp [resultEq]
  all_goals tauto

/-- C9: `parse_custom` is a total function — every input yields a defined
result whose kind is one of the three outcome kinds — and its loop-iteration
count `parse_custom_cost` is bounded by an affine function of the input
length, so it runs to completion in time linear in the input length. -/
theorem claim_c9 (str : List Char) :
    parse_custom_cost str ≤ 4 * str.length + 8 ∧
      ((parse_custom str).err = ErrCode.empty ∨ (parse_custom str).err = ErrCode.error ∨
        (parse_custom str).err = ErrCode.success) := by
  constructor
  · have hskip := skip_ws_cost_le str
    cases hd : str.dropWhile isspace with
    | nil =>
      simp only [parse_custom_cost, hd]
      show skip_ws_cost str + 1 ≤ 4 * str.length + 8
      omega
    | cons c cs =>
      have hlen1 : (c :: cs).length ≤ str.length := by
        rw [← hd]; exact length_dropWhile_le isspace str
      by_cases hc : isdigit c
      · have hp1 := parse_single_cost_le (c :: cs) 0
        cases hps : parse_single (c :: cs) with
        | none =>
          simp only [parse_custom_cost, hd, hc, if_true, hps]
          show skip_ws_cost str + (parse_single_cost (c :: cs) 0 + 1) ≤ 4 * str.length + 8
          simp only [List.length_cons] at hp1 hlen1
          omega
        | some p =>
          obtain ⟨v, rest⟩ := p
          have hrl : rest.length ≤ (c :: cs).length :=
            parse_single_loop_rest_length (c :: cs) 0 v rest hps
          have hskip2 := skip_ws_cost_le rest
          cases hd2 : rest.dropWhile isspace with
          | nil =>
            simp only [parse_custom_cost, hd, hc, if_true, hps]
            rw [hd2]
            show skip_ws_cost str + (parse_single_cost (c :: cs) 0 + (skip_ws_cost rest + 1)) ≤
              4 * str.length + 8
            simp only [List.length_cons] at hp1 hlen1 hrl
            omega
          | cons c2 cs2 =>
            have hlen2 : (c2 :: cs2).length ≤ rest.length := by
              rw [← hd2]; exact length_dropWhile_le isspace rest
            by_cases hc2 : isdigit c2
            · have hp2 := parse_single_cost_le (c2 :: cs2) 0
              simp only [parse_custom_cost, hd, hc, if_true, hps]
              rw [hd2]
              simp only [hc2, if_true]
              show skip_ws_cost str + (parse_single_cost (c :: cs) 0 +
                (skip_ws_cost rest + (parse_single_cost (c2 :: cs2) 0 + 1))) ≤
                4 * str.length + 8
              simp only [List.length_cons] at hp1 hp2 hlen1 hlen2 hrl
              omega
            · simp only [parse_custom_cost, hd, hc, if_true, hps]
              rw [hd2]
              simp only [hc2, if_false]
              show skip_ws_cost str + (parse_single_cost (c :: cs) 0 + (skip_ws_cost rest + 1)) ≤
                4 * str.length + 8
              simp only [List.length_cons] at hp1 hlen1 hlen2 hrl
              omega
      · simp only [parse_custom_cost, hd]
        rw [if_neg hc]
        show skip_ws_cost str + 1 ≤ 4 * str.length + 8
        omega
  · cases h : (parse_custom str).err
    · exact Or.inr (Or.inr rfl)
    · exact Or.inl rfl
    · exact Or.inr (Or.inl rfl)

/-- C10: at a non-digit character (or at end-of-input) the scanner
`parse_single` reports success with value `0` and an end cursor equal to the
starting cursor — it does not distinguish a zero-digit scan from a parsed
`0` — and `parse_custom` guards each of its two scanner calls with an
explicit digit check at the cursor, so a success of `parse_custom` always
comes from two digit-initial scans. -/
theorem claim_c10 (c : Char) (cs : List Char) (h : isdigit c = false) :
    parse_single (c :: cs) = some (0, c :: cs) ∧
    parse_single ([] : List Char) = some (0, []) ∧
    ∀ str : List Char, (parse_custom str).err = ErrCode.success →
      ∃ c1 l1 v1 rest c2 l2, str.dropWhile isspace = c1 :: l1 ∧ isdigit c1 = true ∧
        parse_single (c1 :: l1) = some (v1, rest) ∧
        rest.dropWhile isspace = c2 :: l2 ∧ isdigit c2 = true := by
  refine ⟨?_, rfl, ?_⟩
  · rw [parse_single, parse_single_loop]
    simp [h]
  · intro str hs
    obtain ⟨c1, l1, v1, rest, c2, l2, v2, rest2, hd, hc1, hps, hd2, hc2, _, _⟩ :=
      parse_custom_success_inv str hs
    exact ⟨c1, l1, v1, rest, c2, l2, hd, hc1, hps, hd2, hc2⟩

/-- C10 witness: at the concrete non-digit character `x` the scanner
succeeds with value `0` without consuming anything. -/
theorem claim_c10_witness : parse_single ['x'] = some (0, ['x']) :=
  (claim_c10 'x' [] (by decide)).1
